import Mathlib

/-!
Verification of the PDF-Matrix-Grabber extraction pipeline against its
natural-language specification.  The Python sources under
`src/dmx_grabber/` are shallowly embedded: Python strings become
`List Char`, Python `re` substitutions over fixed alternations become
explicit scans, bounded `while` loops become fuel-indexed recursions
whose fuel provably never runs out (each productive iteration strictly
shortens the string), and fallible calls are modelled with `Except`.
-/

namespace DmxGrabber

/-! ## Characters and Python string primitives -/

/-- The ASCII Group Separator, byte `0x1D` (`GS` in `parser.py`). -/
def GSC : Char := Char.ofNat 0x1D

/-- Code points that Python's `str.strip()` removes (`Py_UNICODE_ISSPACE`):
ASCII whitespace, the C0 separators `0x1C`–`0x1F`, NEL, NBSP and the
Unicode space separators. -/
def pySpaceCodes : List Nat :=
  [0x09, 0x0A, 0x0B, 0x0C, 0x0D, 0x1C, 0x1D, 0x1E, 0x1F, 0x20, 0x85, 0xA0,
   0x1680, 0x2000, 0x2001, 0x2002, 0x2003, 0x2004, 0x2005, 0x2006, 0x2007,
   0x2008, 0x2009, 0x200A, 0x2028, 0x2029, 0x202F, 0x205F, 0x3000]

def pyIsSpace (c : Char) : Bool := pySpaceCodes.contains c.toNat

/-- Python `str.strip()`: drop leading and trailing whitespace. -/
def pyStrip (s : List Char) : List Char :=
  ((s.dropWhile pyIsSpace).reverse.dropWhile pyIsSpace).reverse

/-- ASCII case fold, for matching the alternation `_VISIBLE_GS_RE`
under `re.IGNORECASE`.  CPython's IGNORECASE additionally folds a few
non-ASCII equivalences (e.g. `U+017F` long s onto `s`); those are not
modelled here. -/
def lowerA (c : Char) : Char :=
  if 0x41 ≤ c.toNat ∧ c.toNat ≤ 0x5A then Char.ofNat (c.toNat + 32) else c

/-- Case-insensitive character comparison. -/
def ciEq (a b : Char) : Bool := lowerA a == lowerA b

/-- Exact character comparison, as used by Python `str.find`. -/
def exEq (a b : Char) : Bool := a == b

/-- `prefixRel r pat s` holds when `pat` matches the front of `s`
character-by-character under the comparison `r`. -/
def prefixRel (r : Char → Char → Bool) : List Char → List Char → Bool
  | [], _ => true
  | _ :: _, [] => false
  | a :: as, b :: bs => r a b && prefixRel r as bs

/-- Python `str.find(pat)` restricted to a suffix: first index `i`
(within `s`) at which `pat` occurs, scanning left to right. -/
def findAux (pat : List Char) : List Char → Nat → Option Nat
  | [], i => if pat.isEmpty then some i else none
  | c :: cs, i =>
    if prefixRel exEq pat (c :: cs) then some i else findAux pat cs (i + 1)

/-- Python `s.find(pat, start)`: search only from offset `start`,
returning an absolute index (`none` models `-1`). -/
def pyFindFrom (pat s : List Char) (start : Nat) : Option Nat :=
  (findAux pat (s.drop start) 0).map (fun k => start + k)

/-- Python `s.find(pat)`. -/
def pyFind (pat s : List Char) : Option Nat := pyFindFrom pat s 0

/-! ## `normalize_gs1_raw` (parser.py lines 37–72) -/

def d2Tok : List Char := "]d2".data
def fnc1Tok : List Char := "<FNC1>".data

/-- One pass of the prefix-stripping `while` body: `]d2`, `<FNC1>`, a
leading `0xE8` byte, and a leading literal `0x1D`, each tested on the
already-shortened string, tracking the `changed` flag. -/
def dropPre (pre : List Char) (st : List Char × Bool) : List Char × Bool :=
  if pre.isPrefixOf st.1 then (st.1.drop pre.length, true) else st

def dropHeadE8 (st : List Char × Bool) : List Char × Bool :=
  match st.1 with
  | c :: cs => if c.toNat == 0xE8 then (cs, true) else st
  | [] => st

def dropHeadGS (st : List Char × Bool) : List Char × Bool :=
  match st.1 with
  | c :: cs => if c == GSC then (cs, true) else st
  | [] => st

def stripOnce (code : List Char) : List Char × Bool :=
  dropHeadGS (dropHeadE8 (dropPre fnc1Tok (dropPre d2Tok (code, false))))

/-- The `while changed and code` loop.  Every iteration that reports a
change removes at least one character, so fuel `code.length + 1` is
enough for the loop to reach its fixed point. -/
def stripLoop : Nat → List Char → List Char
  | 0, code => code
  | Nat.succ fuel, code =>
    if code.isEmpty then code
    else
      let r := stripOnce code
      if r.2 then stripLoop fuel r.1 else code

/-- The alternatives of `_VISIBLE_GS_RE`, in order. -/
def gsTokens : List (List Char) :=
  ["<GS>".data, "[GS]".data, "\x7bGS\x7d".data, "␝".data,
   "\\x1d".data, "\\u001d".data, "^]".data]

/-- Length of the first alternative of `_VISIBLE_GS_RE` matching at the
head of `s` (case-insensitively), if any. -/
def matchTokenLen (s : List Char) : Option Nat :=
  gsTokens.findSome? (fun t => if prefixRel ciEq t s then some t.length else none)

/-- `_VISIBLE_GS_RE.sub(GS, code)`: left-to-right scan replacing each
non-overlapping token occurrence by a single `0x1D`.  The second
argument counts characters still to skip after a match. -/
def subGSAux : List Char → Nat → List Char
  | [], _ => []
  | _ :: cs, Nat.succ k => subGSAux cs k
  | c :: cs, 0 =>
    match matchTokenLen (c :: cs) with
    | some len => GSC :: subGSAux cs (len - 1)
    | none => c :: subGSAux cs 0

def subGS (s : List Char) : List Char := subGSAux s 0

def gs91M : List Char := "GS91".data
def gs92M : List Char := "GS92".data
def gs93M : List Char := "GS93".data

/-- `code[:idx] + GS + code[idx+2:]`: replace the two letters at `idx`
by a single `0x1D`. -/
def replaceAt (code : List Char) (idx : Nat) : List Char :=
  code.take idx ++ GSC :: code.drop (idx + 2)

/-- The `while True: idx = code.find(marker, start) …` repair loop.
Each replacement shortens the string by one character, so fuel
`code.length + 1` always reaches the `find = -1` break. -/
def repairLoop (marker : List Char) : Nat → List Char → Nat → List Char
  | 0, code, _ => code
  | Nat.succ fuel, code, start =>
    match pyFindFrom marker code start with
    | none => code
    | some idx => repairLoop marker fuel (replaceAt code idx) (idx + 1)

/-- The `for ai in ("91", "92", "93")` repair pass, each starting at
offset 18. -/
def repairMarkers (code : List Char) : List Char :=
  let c1 := repairLoop gs91M (code.length + 1) code 18
  let c2 := repairLoop gs92M (c1.length + 1) c1 18
  repairLoop gs93M (c2.length + 1) c2 18

/-- `normalize_gs1_raw` (parser.py). -/
def normalizeGs1Raw (rawCode : List Char) : List Char :=
  let code := pyStrip rawCode
  let code := stripLoop (code.length + 1) code
  let code := subGS code
  repairMarkers code

/-! ## `parse_honest_mark` (parser.py lines 75–162) -/

def ai01 : List Char := "01".data
def aiSerial21 : List Char := "21".data
def aiKey91 : List Char := "91".data
def aiKey93 : List Char := "93".data
def aiCrypto92 : List Char := "92".data
def gsLetters : List Char := "GS".data

/-- The parsed view of a GS1 DataMatrix payload (`HonestMarkCode`). -/
structure HonestMarkCode where
  raw : List Char
  gtin : Option (List Char) := none
  serial : Option (List Char) := none
  verification_key : Option (List Char) := none
  crypto : Option (List Char) := none
  deriving Repr, DecidableEq

/-- Python `min` over a nonempty list of found positions. -/
def listMin : List Nat → Option Nat
  | [] => none
  | x :: xs => some (xs.foldl Nat.min x)

/-- Serial extraction (parser.py lines 107–132): given the data after
AI `21`, return `(serial, rest_of_code)`.  The end of the serial is the
first `0x1D` anywhere; failing that the smallest position `≤ 20` of
`GS91`/`GS93`/`GS92` (consuming the two letters `GS`); failing that the
smallest position `≤ 20` of `91`/`93`/`92`; failing that a hard cut at
20 characters. -/
def extractSerial (serialData : List Char) : List Char × List Char :=
  let gsPos := pyFind [GSC] serialData
  let aiCands := [pyFind aiKey91 serialData, pyFind aiKey93 serialData,
                  pyFind aiCrypto92 serialData]
  let aiPositions := (aiCands.filterMap id).filter (fun pos => pos ≤ 20)
  let plainCands := [pyFind (gsLetters ++ aiKey91) serialData,
                     pyFind (gsLetters ++ aiKey93) serialData,
                     pyFind (gsLetters ++ aiCrypto92) serialData]
  let plainPositions := (plainCands.filterMap id).filter (fun pos => pos ≤ 20)
  match gsPos with
  | some g => (serialData.take g, serialData.drop (g + 1))
  | none =>
    match listMin plainPositions with
    | some m => (serialData.take m, serialData.drop (m + 2))
    | none =>
      match listMin aiPositions with
      | some m => (serialData.take m, serialData.drop m)
      | none => (serialData.take 20, serialData.drop 20)

/-- The `for ai in AI_KEYS` scan (parser.py lines 134–141): position of
the nearest of `91`/`93`, preferring `91` on ties (strict `<` update). -/
def keyPosOf (codeRest : List Char) : Option Nat :=
  match pyFind aiKey91 codeRest, pyFind aiKey93 codeRest with
  | none, none => none
  | some a, none => some a
  | none, some b => some b
  | some a, some b => some (if b < a then b else a)

/-- The AI `21` branch (parser.py lines 104–132): serial plus the
remaining code. -/
def serialStep (codeRest0 : List Char) : Option (List Char) × List Char :=
  if aiSerial21.isPrefixOf codeRest0 then
    (some (extractSerial (codeRest0.drop 2)).1, (extractSerial (codeRest0.drop 2)).2)
  else (none, codeRest0)

/-- The AI `91`/`93` branch (parser.py lines 143–147): verification key
plus the remaining code. -/
def keyStep (codeRest1 : List Char) : Option (List Char) × List Char :=
  match keyPosOf codeRest1 with
  | none => (none, codeRest1)
  | some kp =>
    let key := (codeRest1.drop (kp + 2)).take 4
    (if key.length = 4 then some key else none, codeRest1.drop (kp + 6))

/-- The trailing crypto field (parser.py lines 149–157). -/
def cryptoStep (codeRest2 : List Char) : Option (List Char) :=
  let codeRest3 := if gsLetters.isPrefixOf codeRest2 then codeRest2.drop 2 else codeRest2
  let codeRest4 := if [GSC].isPrefixOf codeRest3 then codeRest3.drop 1 else codeRest3
  match pyFind aiCrypto92 codeRest4 with
  | none => none
  | some i => some (codeRest4.drop (i + 2))

/-- Everything after a valid GTIN: serial, verification key, crypto
(parser.py lines 103–157). -/
def parseTail (code gtin codeRest0 : List Char) : HonestMarkCode :=
  { raw := code, gtin := some gtin,
    serial := (serialStep codeRest0).1,
    verification_key := (keyStep (serialStep codeRest0).2).1,
    crypto := cryptoStep (keyStep (serialStep codeRest0).2).2 }

/-- The code-point ranges accepted by Python's `str.isdigit`: the
Unicode `Numeric_Type=Decimal` digit blocks of the major scripts plus
the `Numeric_Type=Digit` digit-valued characters (the Latin-1
superscripts and the superscript and subscript digits).  A handful of
rare digit-type code points (circled digits and similar) are not
enumerated. -/
def pyDigitRanges : List (Nat × Nat) :=
  [(0x30, 0x39), (0xB2, 0xB3), (0xB9, 0xB9), (0x660, 0x669), (0x6F0, 0x6F9),
   (0x7C0, 0x7C9), (0x966, 0x96F), (0x9E6, 0x9EF), (0xA66, 0xA6F), (0xAE6, 0xAEF),
   (0xB66, 0xB6F), (0xBE6, 0xBEF), (0xC66, 0xC6F), (0xCE6, 0xCEF), (0xD66, 0xD6F),
   (0xDE6, 0xDEF), (0xE50, 0xE59), (0xED0, 0xED9), (0xF20, 0xF29), (0x1040, 0x1049),
   (0x1090, 0x1099), (0x17E0, 0x17E9), (0x1810, 0x1819), (0x1946, 0x194F),
   (0x19D0, 0x19D9), (0x1A80, 0x1A89), (0x1A90, 0x1A99), (0x1B50, 0x1B59),
   (0x1BB0, 0x1BB9), (0x1C40, 0x1C49), (0x1C50, 0x1C59), (0x2070, 0x2070),
   (0x2074, 0x2079), (0x2080, 0x2089), (0xA620, 0xA629), (0xA8D0, 0xA8D9),
   (0xA900, 0xA909), (0xA9D0, 0xA9D9), (0xAA50, 0xAA59), (0xABF0, 0xABF9),
   (0xFF10, 0xFF19)]

/-- Python `str.isdigit` on one character.  Crucially it is wider than
the decimal digits `0`–`9`: e.g. `'²'` (`U+00B2`) is isdigit-true but
not a decimal digit. -/
def pyIsDigit (c : Char) : Bool :=
  pyDigitRanges.any (fun r => r.1 ≤ c.toNat && c.toNat ≤ r.2)

/-- The body of `parse_honest_mark` after normalization: locate AI
`01`, check the 14 GTIN characters with `str.isdigit`, then parse the
tail. -/
def parseAfterNorm (code : List Char) : HonestMarkCode :=
  match pyFind ai01 code with
  | none => { raw := code }
  | some idx =>
    if ((code.drop (idx + 2)).take 14).length = 14 ∧
        ((code.drop (idx + 2)).take 14).all pyIsDigit then
      parseTail code ((code.drop (idx + 2)).take 14) (code.drop (idx + 16))
    else { raw := code }

/-- `parse_honest_mark` (parser.py).  The embedded operations are all
total, so the `try/except` wrapper has no effect to model. -/
def parseHonestMark (rawCode : List Char) : HonestMarkCode :=
  parseAfterNorm (normalizeGs1Raw rawCode)

/-! ## Data models (models.py) -/

inductive Status where
  | OK
  | NOT_FOUND
  | ERROR
  deriving Repr, DecidableEq

/-- `ProcessingResult` (models.py). -/
structure ProcessingResult where
  filename : String
  page : Option Nat
  datamatrix_raw : Option (List Char) := none
  gtin : Option (List Char) := none
  serial : Option (List Char) := none
  verification_key : Option (List Char) := none
  crypto : Option (List Char) := none
  status : Status := Status.OK
  error_message : Option String := none
  deriving Repr, DecidableEq

/-- `SessionStats` (models.py). -/
structure SessionStats where
  total_files : Nat := 0
  processed_files : Nat := 0
  total_pages : Nat := 0
  pages_processed : Nat := 0
  total_codes : Nat := 0
  pages_empty : Nat := 0
  files_with_errors : Nat := 0
  errors : List String := []
  resumed_from : Nat := 0
  interrupted : Bool := false
  deriving Repr, DecidableEq

/-- `SessionStats.success_rate` (models.py lines 45–50), with Python
float arithmetic modelled exactly in `ℚ` (all values involved are
exactly representable and the operations here are exact). -/
def successRate (st : SessionStats) : ℚ :=
  if st.pages_processed = 0 then 0
  else ((st.pages_processed : ℚ) - (st.pages_empty : ℚ)) / (st.pages_processed : ℚ) * 100

/-! ## Exporter (exporter.py) -/

/-- The character class of `_ILLEGAL_CONTROL_CHARS_RE`:
`[\x00-\x08\x0B-\x0C\x0E-\x1F]`. -/
def isIllegalCtl (c : Char) : Bool :=
  (c.toNat ≤ 0x08) || (0x0B ≤ c.toNat && c.toNat ≤ 0x0C) ||
    (0x0E ≤ c.toNat && c.toNat ≤ 0x1F)

def hexDigitLower (n : Nat) : Char :=
  if n < 10 then Char.ofNat (0x30 + n) else Char.ofNat (0x61 + (n - 10))

/-- Python `f"\\x{ord(ch):02x}"` for the code points that can occur
here (all `< 0x20`, hence two hex digits). -/
def hexEscape (c : Char) : List Char :=
  ['\\', 'x', hexDigitLower (c.toNat / 16), hexDigitLower (c.toNat % 16)]

/-- The `_replace` callback of `_sanitize_excel_string`. -/
def sanitizeReplace (c : Char) : List Char :=
  if c = GSC then "<GS>".data else hexEscape c

/-- `_sanitize_excel_string` (exporter.py lines 14–23): `re.sub` over a
single-character class acts independently on each character. -/
def sanitizeExcelString : List Char → List Char
  | [] => []
  | c :: cs =>
    (if isIllegalCtl c then sanitizeReplace c else [c]) ++ sanitizeExcelString cs

/-- `_results_to_done_pages` (exporter.py lines 56–63): one progress
entry per result with a non-`None` page, regardless of status. -/
def resultsToDonePages (results : List ProcessingResult) : List (String × Nat) :=
  results.filterMap (fun r => r.page.map (fun p => (r.filename, p)))

/-- Abstract state of the files `load_progress` may read: `none` models
a missing file, `Except.error` a file whose read or parse raises. -/
structure ProgressFs where
  sidecar : Option (Except String (List (String × Nat)))
  output : Option (Except String (Option (List (String × Nat))))

/-- `load_progress` (exporter.py lines 163–198).  The sidecar, when
present, wins; any read/parse exception yields the empty set.  The
legacy fallback reads the output workbook: `none` rows model the
required columns being absent. -/
def loadProgress (fs : ProgressFs) : List (String × Nat) :=
  match fs.sidecar with
  | some (Except.error _) => []
  | some (Except.ok rows) => rows
  | none =>
    match fs.output with
    | none => []
    | some (Except.error _) => []
    | some (Except.ok none) => []
    | some (Except.ok (some rows)) => rows

/-! ## Page worker (processor.py `_decode_single_page`, lines 35–105) -/

/-- One decoded payload becomes one `OK` result; normalization always
runs, parsing only when `parse_marks` is set. -/
def okResultOf (filename : String) (displayPage : Nat) (parseMarks : Bool)
    (codeValue : List Char) : ProcessingResult :=
  let normalized := normalizeGs1Raw codeValue
  if parseMarks then
    let mark := parseHonestMark normalized
    { filename := filename, page := some displayPage,
      datamatrix_raw := some normalized, gtin := mark.gtin,
      serial := mark.serial, verification_key := mark.verification_key,
      crypto := mark.crypto, status := Status.OK }
  else
    { filename := filename, page := some displayPage,
      datamatrix_raw := some normalized, status := Status.OK }

/-- The body of the `try` block: render with ROI, decode, optionally
re-render the full page when a ROI is configured and nothing was found.
`Image` abstracts the pixel buffers; `renderRoi`/`renderFull`/`decode`
are the rasterizer/decoder oracles, erroring where the libraries would
raise. -/
def decodePipeline {Image : Type} (renderRoi renderFull : Except String Image)
    (decode : Image → Except String (List (List Char)))
    (roiConfigured : Bool) : Except String (List (List Char)) := do
  let image ← renderRoi
  let codes ← decode image
  if codes.isEmpty ∧ roiConfigured then
    let fullImage ← renderFull
    decode fullImage
  else
    pure codes

/-- `_decode_single_page`: the catch-all `except` turns any raised
exception into a single `ERROR` result carrying its message. -/
def decodeSinglePage {Image : Type} (renderRoi renderFull : Except String Image)
    (decode : Image → Except String (List (List Char)))
    (roiConfigured : Bool) (filename : String) (pageNum : Nat)
    (parseMarks : Bool) : List ProcessingResult :=
  let displayPage := pageNum + 1
  match decodePipeline renderRoi renderFull decode roiConfigured with
  | Except.error e =>
    [{ filename := filename, page := some displayPage,
       status := Status.ERROR, error_message := some e }]
  | Except.ok codes =>
    if codes.isEmpty then
      [{ filename := filename, page := some displayPage,
         status := Status.NOT_FOUND }]
    else
      codes.map (okResultOf filename displayPage parseMarks)

/-! ## Task enumeration with resume filtering (processor.py lines 143–166) -/

/-- The task-queue build: per file, skip pages whose `(filename, page+1)`
is in the resume set; files whose page count cannot be read contribute
nothing.  `applyLimit` is the global `page_limit` truncation. -/
def buildTaskQueue (files : List (String × Except String Nat))
    (donePages : List (String × Nat)) : List (String × Nat) :=
  files.flatMap (fun f =>
    match f.2 with
    | Except.error _ => []
    | Except.ok total =>
      (List.range total).filterMap (fun p =>
        if (f.1, p + 1) ∈ donePages then none else some (f.1, p)))

def applyLimit (queue : List (String × Nat)) : Option Nat → List (String × Nat)
  | none => queue
  | some l => queue.take l

/-! ## Multi-worker ordered commit (processor.py lines 226–292) -/

/-- A page key `(filename, page_1based)` as used by `ordered_page_keys`
and the staging map. -/
abbrev PageKey := String × Nat

/-- State of the parallel-mode commit machinery: the staging map
`ready_pages` (an association list standing for the dict, whose keys
are unique), the cursor `next_page_idx`, and the sequence of outcomes
committed to the sink buffer so far (`SAVE_EVERY` flushing forwards
this sequence unchanged, so it is kept whole here). -/
structure MWState where
  readyPages : List (PageKey × List ProcessingResult)
  nextPageIdx : Nat
  buffer : List ProcessingResult
  deriving Repr

def lookupKey (k : PageKey) : List (PageKey × List ProcessingResult) →
    Option (List ProcessingResult)
  | [] => none
  | e :: rest => if e.1 = k then some e.2 else lookupKey k rest

/-- `ready_pages.pop(page_key)`: remove the binding. -/
def popKey (k : PageKey) (l : List (PageKey × List ProcessingResult)) :
    List (PageKey × List ProcessingResult) :=
  l.eraseP (fun e => decide (e.1 = k))

/-- `_drain_ready_pages` (processor.py lines 232–243): pop and commit
staged pages while the page at the cursor is ready.  Each iteration
advances the cursor, so fuel `ordered.length + 1` reaches the loop's
exit condition. -/
def drainReady (ordered : List PageKey) : Nat → MWState → MWState
  | 0, st => st
  | Nat.succ fuel, st =>
    match ordered[st.nextPageIdx]? with
    | none => st
    | some key =>
      match lookupKey key st.readyPages with
      | none => st
      | some pageResults =>
        drainReady ordered fuel
          { readyPages := popKey key st.readyPages,
            nextPageIdx := st.nextPageIdx + 1,
            buffer := st.buffer ++ pageResults }

/-- Handling of one completed future (processor.py lines 263–285):
stage its outcomes under its page key, then drain. -/
def completeOne (ordered : List PageKey) (st : MWState)
    (c : PageKey × List ProcessingResult) : MWState :=
  drainReady ordered (ordered.length + 1) { st with readyPages := c :: st.readyPages }

/-- The multi-worker run over a completion order: outcomes committed to
the sink buffer after all submitted futures completed. -/
def multiWorkerRun (ordered : List PageKey)
    (completions : List (PageKey × List ProcessingResult)) : List ProcessingResult :=
  (completions.foldl (completeOne ordered) ⟨[], 0, []⟩).buffer

/-- The single-worker inline mode (processor.py lines 200–220): stream
each task's outcomes to the sink buffer in task order. -/
def singleWorkerRun (tasks : List (PageKey × List ProcessingResult)) :
    List ProcessingResult :=
  tasks.foldl (fun buf t => buf ++ t.2) []

/-! # Helper lemmas -/

theorem sanitize_append (s t : List Char) :
    sanitizeExcelString (s ++ t) = sanitizeExcelString s ++ sanitizeExcelString t := by
  induction s with
  | nil => rfl
  | cons c cs ih => simp [sanitizeExcelString, ih]

theorem foldl_min_le (xs : List Nat) (x : Nat) : xs.foldl Nat.min x ≤ x := by
  induction xs generalizing x with
  | nil => exact le_refl x
  | cons y ys ih => exact le_trans (ih (Nat.min x y)) (Nat.min_le_left x y)

theorem listMin_le_20 (l : List Nat) (m : Nat) (hm : listMin l = some m)
    (hall : ∀ x ∈ l, x ≤ 20) : m ≤ 20 := by
  cases l with
  | nil => simp [listMin] at hm
  | cons x xs =>
    have h : xs.foldl Nat.min x = m := by simpa [listMin] using hm
    calc m = xs.foldl Nat.min x := h.symm
      _ ≤ x := foldl_min_le xs x
      _ ≤ 20 := hall x (List.mem_cons_self x xs)

/-- In the first branch of `extractSerial` the serial is everything up
to the first `0x1D`, wherever it is. -/
theorem extractSerial_gs (sd : List Char) (g : Nat)
    (hg : pyFind [GSC] sd = some g) : (extractSerial sd).1 = sd.take g := by
  simp [extractSerial, hg]

/-- When the serial data has no `0x1D` the serial is at most 20
characters long. -/
theorem extractSerial_no_gs (sd : List Char) (hg : pyFind [GSC] sd = none) :
    (extractSerial sd).1.length ≤ 20 := by
  have hbound : ∀ (cands : List (Option Nat)) (m : Nat),
      listMin ((cands.filterMap id).filter (fun pos => pos ≤ 20)) = some m → m ≤ 20 := by
    intro cands m hm
    refine listMin_le_20 _ m hm ?_
    intro x hx
    simpa using (List.of_mem_filter hx)
  have hlen : ∀ (m : Nat), m ≤ 20 → (sd.take m).length ≤ 20 := by
    intro m hm
    calc (sd.take m).length ≤ m := by
          rw [List.length_take]; exact Nat.min_le_left m sd.length
      _ ≤ 20 := hm
  simp only [extractSerial, hg]
  rcases hp : listMin (([pyFind (gsLetters ++ aiKey91) sd, pyFind (gsLetters ++ aiKey93) sd,
      pyFind (gsLetters ++ aiCrypto92) sd].filterMap id).filter (fun pos => pos ≤ 20)) with _ | m
  · rcases ha : listMin (([pyFind aiKey91 sd, pyFind aiKey93 sd,
        pyFind aiCrypto92 sd].filterMap id).filter (fun pos => pos ≤ 20)) with _ | m
    · exact hlen 20 (le_refl 20)
    · exact hlen m (hbound _ m ha)
  · exact hlen m (hbound _ m hp)

/-! # Occurrence machinery for the normalization proofs

`prefixRel r pat (s.drop i) = true` says that `pat` occurs at offset
`i` of `s` under the character comparison `r` (`exEq` for `str.find`,
`ciEq` for the case-insensitive regex). -/

/-- No occurrence of `pat` (under `r`) at any offset `≥ n`. -/
def NoOccFrom (r : Char → Char → Bool) (pat : List Char) (n : Nat) (s : List Char) : Prop :=
  ∀ i, n ≤ i → prefixRel r pat (s.drop i) = false

theorem prefixRel_append (r : Char → Char → Bool) (pat : List Char) :
    ∀ (X Z : List Char), prefixRel r pat X = true → prefixRel r pat (X ++ Z) = true := by
  induction pat with
  | nil => intro X Z _; rfl
  | cons a ps ih =>
    intro X Z h
    cases X with
    | nil => simp [prefixRel] at h
    | cons b bs =>
      simp only [prefixRel, Bool.and_eq_true] at h ⊢
      exact ⟨h.1, ih bs Z h.2⟩

theorem prefixRel_take (r : Char → Char → Bool) (pat : List Char) (k : Nat) (X : List Char)
    (h : prefixRel r pat (X.take k) = true) : prefixRel r pat X = true := by
  have := prefixRel_append r pat (X.take k) (X.drop k) h
  rwa [List.take_append_drop] at this

theorem prefixRel_length (r : Char → Char → Bool) :
    ∀ (pat X : List Char), prefixRel r pat X = true → pat.length ≤ X.length := by
  intro pat
  induction pat with
  | nil => intro X _; simp
  | cons a ps ih =>
    intro X h
    cases X with
    | nil => simp [prefixRel] at h
    | cons b bs =>
      simp only [prefixRel, Bool.and_eq_true] at h
      simpa using ih bs h.2

/-- A pattern containing no `0x1D` cannot match across an inserted
`0x1D`: it lies entirely before or entirely after it. -/
theorem prefixRel_sep_split (r : Char → Char → Bool) (pat : List Char)
    (hGS : ∀ a ∈ pat, r a GSC = false) :
    ∀ (X B : List Char), prefixRel r pat (X ++ GSC :: B) = true →
      pat.length ≤ X.length ∧ prefixRel r pat X = true := by
  induction pat with
  | nil => intro X B _; simp [prefixRel]
  | cons a ps ih =>
    intro X B h
    cases X with
    | nil =>
      simp only [List.nil_append, prefixRel, Bool.and_eq_true] at h
      rw [hGS a (List.mem_cons_self a ps)] at h
      exact absurd h.1 (by simp)
    | cons b bs =>
      simp only [List.cons_append, prefixRel, Bool.and_eq_true] at h
      have hps := ih (fun x hx => hGS x (List.mem_cons_of_mem a hx)) bs B h.2
      refine ⟨?_, ?_⟩
      · simpa using hps.1
      · simp only [prefixRel, Bool.and_eq_true]
        exact ⟨h.1, hps.2⟩

/-- An occurrence in `A ++ 0x1D :: B` (for a `0x1D`-free pattern) is an
occurrence in `A` or an occurrence in `B`. -/
theorem occurs_sep_split (r : Char → Char → Bool) (pat : List Char)
    (hGS : ∀ a ∈ pat, r a GSC = false) (A B : List Char) (i : Nat)
    (h : prefixRel r pat ((A ++ GSC :: B).drop i) = true) :
    (i + pat.length ≤ A.length ∧ prefixRel r pat (A.drop i) = true) ∨
    (A.length + 1 ≤ i ∧ prefixRel r pat (B.drop (i - A.length - 1)) = true) := by
  rcases le_or_lt i A.length with hi | hi
  · rw [List.drop_append_of_le_length hi] at h
    have hsplit := prefixRel_sep_split r pat hGS (A.drop i) B h
    refine Or.inl ⟨?_, hsplit.2⟩
    have := hsplit.1
    rw [List.length_drop] at this
    omega
  · right
    have hdec : i = A.length + (i - A.length) := by omega
    rw [hdec, List.drop_append] at h
    have hpos : 0 < i - A.length := by omega
    have hdec2 : i - A.length = (i - A.length - 1) + 1 := by omega
    rw [hdec2, List.drop_succ_cons] at h
    exact ⟨by omega, h⟩

/-- `replaceAt` structure: mapping occurrences in the replaced string
back to occurrences in the original. -/
theorem occurs_replaceAt (r : Char → Char → Bool) (pat : List Char)
    (hGS : ∀ a ∈ pat, r a GSC = false) (code : List Char) (idx i : Nat)
    (hidx : idx ≤ code.length)
    (h : prefixRel r pat ((replaceAt code idx).drop i) = true) :
    (prefixRel r pat (code.drop i) = true ∧ i + pat.length ≤ idx) ∨
    (prefixRel r pat (code.drop (i + 1)) = true ∧ idx + 1 ≤ i) := by
  have hlenA : (code.take idx).length = idx := by
    rw [List.length_take]
    omega
  unfold replaceAt at h
  rcases occurs_sep_split r pat hGS (code.take idx) (code.drop (idx + 2)) i h with
    ⟨hle, hocc⟩ | ⟨hge, hocc⟩
  · left
    rw [hlenA] at hle
    constructor
    · have hdt : (code.take idx).drop i = (code.drop i).take (idx - i) := by
        rw [List.drop_take]
      rw [hdt] at hocc
      exact prefixRel_take r pat (idx - i) (code.drop i) hocc
    · exact hle
  · right
    rw [hlenA] at hge hocc
    rw [List.drop_drop] at hocc
    have harith : idx + 2 + (i - idx - 1) = i + 1 := by omega
    rw [harith] at hocc
    exact ⟨hocc, by omega⟩

/-- `NoOccFrom` (for `0x1D`-free patterns) is preserved by any single
`GS`-replacement. -/
theorem noOcc_replaceAt (r : Char → Char → Bool) (pat : List Char)
    (hGS : ∀ a ∈ pat, r a GSC = false) (code : List Char) (idx n : Nat)
    (hidx : idx ≤ code.length) (hno : NoOccFrom r pat n code) :
    NoOccFrom r pat n (replaceAt code idx) := by
  intro i hi
  by_contra hne
  have htrue : prefixRel r pat ((replaceAt code idx).drop i) = true := by
    cases hval : prefixRel r pat ((replaceAt code idx).drop i) with
    | true => rfl
    | false => exact absurd hval hne
  rcases occurs_replaceAt r pat hGS code idx i hidx htrue with ⟨hocc, _⟩ | ⟨hocc, _⟩
  · rw [hno i hi] at hocc
    exact absurd hocc (by simp)
  · rw [hno (i + 1) (by omega)] at hocc
    exact absurd hocc (by simp)

/-! ## Specification of `str.find` -/

theorem findAux_some_spec (pat : List Char) (hne : pat ≠ []) :
    ∀ (s : List Char) (i j : Nat), findAux pat s i = some j →
      i ≤ j ∧ prefixRel exEq pat (s.drop (j - i)) = true ∧
        ∀ m, m < j - i → prefixRel exEq pat (s.drop m) = false := by
  intro s
  induction s with
  | nil =>
    intro i j h
    simp [findAux, List.isEmpty_iff, hne] at h
  | cons c cs ih =>
    intro i j h
    unfold findAux at h
    split at h
    next hpre =>
      have hj : j = i := by simpa using h.symm
      subst hj
      refine ⟨le_refl j, by simpa using hpre, ?_⟩
      intro m hm
      omega
    next hpre =>
      obtain ⟨h1, h2, h3⟩ := ih (i + 1) j h
      refine ⟨by omega, ?_, ?_⟩
      · have hd : (c :: cs).drop (j - i) = cs.drop (j - (i + 1)) := by
          have h0 : j - i = (j - (i + 1)) + 1 := by omega
          rw [h0, List.drop_succ_cons]
        rw [hd]
        exact h2
      · intro m hm
        cases m with
        | zero =>
          simp only [List.drop_zero]
          exact Bool.not_eq_true _ ▸ (by simpa using hpre)
        | succ m2 =>
          rw [List.drop_succ_cons]
          exact h3 m2 (by omega)

theorem findAux_none_spec (pat : List Char) (hne : pat ≠ []) :
    ∀ (s : List Char) (i : Nat), findAux pat s i = none →
      ∀ m, prefixRel exEq pat (s.drop m) = false := by
  intro s
  induction s with
  | nil =>
    intro i _ m
    rw [List.drop_nil]
    cases pat with
    | nil => exact absurd rfl hne
    | cons a ps => rfl
  | cons c cs ih =>
    intro i h m
    unfold findAux at h
    split at h
    next => exact absurd h (by simp)
    next hpre =>
      cases m with
      | zero =>
        simp only [List.drop_zero]
        simpa using hpre
      | succ m2 =>
        rw [List.drop_succ_cons]
        exact ih (i + 1) h m2

theorem pyFindFrom_some_spec (pat s : List Char) (start idx : Nat) (hne : pat ≠ [])
    (h : pyFindFrom pat s start = some idx) :
    start ≤ idx ∧ prefixRel exEq pat (s.drop idx) = true ∧
      ∀ m, start ≤ m → m < idx → prefixRel exEq pat (s.drop m) = false := by
  unfold pyFindFrom at h
  rcases hfa : findAux pat (s.drop start) 0 with _ | k
  · rw [hfa] at h; simp at h
  · rw [hfa] at h
    have hidx : idx = start + k := by simpa using h.symm
    obtain ⟨_, h2, h3⟩ := findAux_some_spec pat hne (s.drop start) 0 k hfa
    rw [List.drop_drop] at h2
    refine ⟨by omega, ?_, ?_⟩
    · have harith : start + (k - 0) = idx := by omega
      rw [harith] at h2
      exact h2
    · intro m hm1 hm2
      have hmk : m - start < k - 0 := by omega
      have := h3 (m - start) hmk
      rw [List.drop_drop] at this
      have harith : start + (m - start) = m := by omega
      rw [harith] at this
      exact this

theorem pyFindFrom_none_spec (pat s : List Char) (start : Nat) (hne : pat ≠ [])
    (h : pyFindFrom pat s start = none) :
    ∀ m, start ≤ m → prefixRel exEq pat (s.drop m) = false := by
  unfold pyFindFrom at h
  rcases hfa : findAux pat (s.drop start) 0 with _ | k
  · intro m hm
    have := findAux_none_spec pat hne (s.drop start) 0 hfa (m - start)
    rw [List.drop_drop] at this
    have harith : start + (m - start) = m := by omega
    rw [harith] at this
    exact this
  · rw [hfa] at h; simp at h

/-! ## The visible-token substitution removes every token occurrence -/

/-- No alternative of `_VISIBLE_GS_RE` matches at any offset. -/
def NoTok (s : List Char) : Prop := ∀ i, matchTokenLen (s.drop i) = none

theorem tokens_ne_nil : ∀ t ∈ gsTokens, t ≠ [] := by decide

theorem tokens_gs_free : ∀ t ∈ gsTokens, ∀ a ∈ t, ciEq a GSC = false := by decide

theorem matchTokenLen_eq_none_iff (s : List Char) :
    matchTokenLen s = none ↔ ∀ t ∈ gsTokens, prefixRel ciEq t s = false := by
  unfold matchTokenLen
  rw [List.findSome?_eq_none_iff]
  constructor
  · intro h t ht
    have := h t ht
    by_contra hne
    rw [Bool.not_eq_false] at hne
    rw [hne] at this
    simp at this
  · intro h t ht
    rw [h t ht]
    simp

theorem prefixRel_gsc_cons_false (pat : List Char) (X : List Char)
    (hne : pat ≠ []) (hGS : ∀ a ∈ pat, ciEq a GSC = false) :
    prefixRel ciEq pat (GSC :: X) = false := by
  cases pat with
  | nil => exact absurd rfl hne
  | cons a ps =>
    simp only [prefixRel]
    rw [hGS a (List.mem_cons_self a ps)]
    rfl

theorem subGSAux_skip : ∀ (k : Nat) (s : List Char), subGSAux s k = subGSAux (s.drop k) 0 := by
  intro k
  induction k with
  | zero => intro s; rw [List.drop_zero]
  | succ k ih =>
    intro s
    cases s with
    | nil => rfl
    | cons c cs =>
      rw [List.drop_succ_cons, ← ih cs]
      rfl

/-- A `0x1D`-free pattern that matches the front of the substituted
string already matched the front of the original string. -/
theorem subGS_prefix_reflect :
    ∀ (s pat : List Char), (∀ a ∈ pat, ciEq a GSC = false) →
      prefixRel ciEq pat (subGSAux s 0) = true → prefixRel ciEq pat s = true := by
  intro s
  induction s with
  | nil => intro pat _ h; exact h
  | cons c cs ih =>
    intro pat hGS h
    rcases hm : matchTokenLen (c :: cs) with _ | len
    · rw [subGSAux, hm] at h
      cases pat with
      | nil => rfl
      | cons a ps =>
        simp only [prefixRel, Bool.and_eq_true] at h ⊢
        exact ⟨h.1, ih ps (fun x hx => hGS x (List.mem_cons_of_mem a hx)) h.2⟩
    · rw [subGSAux, hm] at h
      cases pat with
      | nil => rfl
      | cons a ps =>
        simp only [prefixRel, Bool.and_eq_true] at h
        rw [hGS a (List.mem_cons_self a ps)] at h
        exact absurd h.1 (by simp)

/-- If no token matches at the head of `c :: cs`, none matches at the
head after substituting in the tail. -/
theorem matchTokenLen_none_cons (c : Char) (cs : List Char)
    (h : matchTokenLen (c :: cs) = none) :
    matchTokenLen (c :: subGSAux cs 0) = none := by
  rw [matchTokenLen_eq_none_iff] at h ⊢
  intro t ht
  by_contra hne
  rw [Bool.not_eq_false] at hne
  cases t with
  | nil => exact absurd rfl (tokens_ne_nil [] ht)
  | cons a ps =>
    simp only [prefixRel, Bool.and_eq_true] at hne
    have hps : prefixRel ciEq ps cs = true :=
      subGS_prefix_reflect cs ps
        (fun x hx => tokens_gs_free (a :: ps) ht x (List.mem_cons_of_mem a hx)) hne.2
    have : prefixRel ciEq (a :: ps) (c :: cs) = true := by
      simp only [prefixRel, Bool.and_eq_true]
      exact ⟨hne.1, hps⟩
    rw [h (a :: ps) ht] at this
    exact absurd this (by simp)

/-- After the substitution pass no visible-GS token occurs anywhere. -/
theorem subGS_noTok : ∀ (n : Nat) (s : List Char), s.length ≤ n → NoTok (subGSAux s 0) := by
  intro n
  induction n with
  | zero =>
    intro s hlen
    have hnil : s = [] := List.length_eq_zero.mp (Nat.le_zero.mp hlen)
    subst hnil
    intro i
    rw [show subGSAux [] 0 = [] from rfl, List.drop_nil]
    decide
  | succ n ih =>
    intro s hlen
    cases s with
    | nil =>
      intro i
      rw [show subGSAux [] 0 = [] from rfl, List.drop_nil]
      decide
    | cons c cs =>
      rcases hm : matchTokenLen (c :: cs) with _ | len
      · rw [subGSAux, hm]
        intro i
        cases i with
        | zero =>
          rw [List.drop_zero]
          exact matchTokenLen_none_cons c cs hm
        | succ i2 =>
          rw [List.drop_succ_cons]
          exact ih cs (by simpa using hlen) i2
      · have hunf : subGSAux (c :: cs) 0 = GSC :: subGSAux cs (len - 1) := by
          rw [subGSAux, hm]
        rw [hunf, subGSAux_skip (len - 1) cs]
        intro i
        cases i with
        | zero =>
          rw [List.drop_zero, matchTokenLen_eq_none_iff]
          intro t ht
          exact prefixRel_gsc_cons_false t _ (tokens_ne_nil t ht) (tokens_gs_free t ht)
        | succ i2 =>
          rw [List.drop_succ_cons]
          refine ih (cs.drop (len - 1)) ?_ i2
          have := List.length_drop (len - 1) cs
          simp only [List.length_cons] at hlen
          omega

/-! ## The marker-repair loops -/

theorem replaceAt_length (code : List Char) (idx : Nat) (h : idx + 2 ≤ code.length) :
    (replaceAt code idx).length = code.length - 1 := by
  unfold replaceAt
  rw [List.length_append, List.length_take, List.length_cons, List.length_drop]
  omega

/-- Any repair loop preserves the absence of any `0x1D`-free pattern
(under either comparison). -/
theorem repairLoop_noOcc (marker : List Char) (hmne : marker ≠ [])
    (r : Char → Char → Bool) (pat : List Char) (hGS : ∀ a ∈ pat, r a GSC = false) :
    ∀ (fuel : Nat) (code : List Char) (start n : Nat),
      NoOccFrom r pat n code → NoOccFrom r pat n (repairLoop marker fuel code start) := by
  intro fuel
  induction fuel with
  | zero => intro code start n h; exact h
  | succ fuel ih =>
    intro code start n h
    rcases hf : pyFindFrom marker code start with _ | idx
    · rw [repairLoop, hf]
      exact h
    · rw [repairLoop, hf]
      have hocc := (pyFindFrom_some_spec marker code start idx hmne hf).2.1
      have hlen := prefixRel_length exEq marker _ hocc
      rw [List.length_drop] at hlen
      have hmlen : 1 ≤ marker.length := by
        cases marker with
        | nil => exact absurd rfl hmne
        | cons a ps => simp
      have hidx : idx ≤ code.length := by omega
      exact ih (replaceAt code idx) (idx + 1) n (noOcc_replaceAt r pat hGS code idx n hidx h)

/-- The repair loop for its own marker leaves no occurrence of that
marker at offset 18 or later. -/
theorem repairLoop_post (marker : List Char) (hmne : marker ≠ [])
    (hm2 : 2 ≤ marker.length) (hmGS : ∀ a ∈ marker, exEq a GSC = false) :
    ∀ (fuel : Nat) (code : List Char) (start : Nat),
      code.length < fuel → 18 ≤ start →
      (∀ i, 18 ≤ i → i < start → prefixRel exEq marker (code.drop i) = false) →
      NoOccFrom exEq marker 18 (repairLoop marker fuel code start) := by
  intro fuel
  induction fuel with
  | zero => intro code start hf _ _; omega
  | succ fuel ih =>
    intro code start hf hstart hinner
    rcases hfind : pyFindFrom marker code start with _ | idx
    · rw [repairLoop, hfind]
      intro i hi
      rcases lt_or_le i start with hlt | hge
      · exact hinner i hi hlt
      · exact pyFindFrom_none_spec marker code start hmne hfind i hge
    · rw [repairLoop, hfind]
      obtain ⟨hsi, hocc, hmin⟩ := pyFindFrom_some_spec marker code start idx hmne hfind
      have hlen := prefixRel_length exEq marker _ hocc
      rw [List.length_drop] at hlen
      have hidx2 : idx + 2 ≤ code.length := by omega
      refine ih (replaceAt code idx) (idx + 1) ?_ (by omega) ?_
      · rw [replaceAt_length code idx hidx2]
        omega
      · intro i hi18 hilt
        by_contra hne
        rw [Bool.not_eq_false] at hne
        rcases occurs_replaceAt exEq marker hmGS code idx i (by omega) hne with
          ⟨hocc2, hle2⟩ | ⟨_, hge2⟩
        · have hilt2 : i < idx := by omega
          rcases lt_or_le i start with hlt3 | hge3
          · rw [hinner i hi18 hlt3] at hocc2
            exact absurd hocc2 (by simp)
          · rw [hmin i hge3 hilt2] at hocc2
            exact absurd hocc2 (by simp)
        · omega

theorem pyFindFrom_eq_none_of_noOcc (marker code : List Char) (start : Nat)
    (hmne : marker ≠ []) (h : ∀ m, start ≤ m → prefixRel exEq marker (code.drop m) = false) :
    pyFindFrom marker code start = none := by
  rcases hfind : pyFindFrom marker code start with _ | idx
  · rfl
  · obtain ⟨hsi, hocc, _⟩ := pyFindFrom_some_spec marker code start idx hmne hfind
    rw [h idx hsi] at hocc
    exact absurd hocc (by simp)

theorem repairLoop_fixed (marker code : List Char) (start : Nat)
    (h : pyFindFrom marker code start = none) :
    ∀ fuel, repairLoop marker fuel code start = code := by
  intro fuel
  cases fuel with
  | zero => rfl
  | succ fuel => rw [repairLoop, h]

theorem marker91_facts : gs91M ≠ [] ∧ 2 ≤ gs91M.length ∧ ∀ a ∈ gs91M, exEq a GSC = false := by
  decide

theorem marker92_facts : gs92M ≠ [] ∧ 2 ≤ gs92M.length ∧ ∀ a ∈ gs92M, exEq a GSC = false := by
  decide

theorem marker93_facts : gs93M ≠ [] ∧ 2 ≤ gs93M.length ∧ ∀ a ∈ gs93M, exEq a GSC = false := by
  decide

/-- After the full repair pass neither `GS91`, `GS92` nor `GS93` occurs
at offset 18 or later. -/
theorem repairMarkers_noOcc (s : List Char) :
    NoOccFrom exEq gs91M 18 (repairMarkers s) ∧
    NoOccFrom exEq gs92M 18 (repairMarkers s) ∧
    NoOccFrom exEq gs93M 18 (repairMarkers s) := by
  obtain ⟨h91ne, h912, h91gs⟩ := marker91_facts
  obtain ⟨h92ne, h922, h92gs⟩ := marker92_facts
  obtain ⟨h93ne, h932, h93gs⟩ := marker93_facts
  unfold repairMarkers
  have hvac : ∀ (c : List Char) (marker : List Char),
      ∀ i, 18 ≤ i → i < 18 → prefixRel exEq marker (c.drop i) = false := by
    intro c marker i h1 h2
    omega
  have hp91 : NoOccFrom exEq gs91M 18 (repairLoop gs91M (s.length + 1) s 18) :=
    repairLoop_post gs91M h91ne h912 h91gs (s.length + 1) s 18 (by omega) (le_refl 18)
      (hvac s gs91M)
  refine ⟨?_, ?_, ?_⟩
  · exact repairLoop_noOcc gs93M h93ne exEq gs91M h91gs _ _ _ _
      (repairLoop_noOcc gs92M h92ne exEq gs91M h91gs _ _ _ _ hp91)
  · exact repairLoop_noOcc gs93M h93ne exEq gs92M h92gs _ _ _ _
      (repairLoop_post gs92M h92ne h922 h92gs _ _ 18 (by omega) (le_refl 18) (hvac _ gs92M))
  · exact repairLoop_post gs93M h93ne h932 h93gs _ _ 18 (by omega) (le_refl 18) (hvac _ gs93M)

theorem noTok_iff (s : List Char) :
    NoTok s ↔ ∀ t ∈ gsTokens, NoOccFrom ciEq t 0 s := by
  constructor
  · intro h t ht i _
    have := h i
    rw [matchTokenLen_eq_none_iff] at this
    exact this t ht
  · intro h i
    rw [matchTokenLen_eq_none_iff]
    intro t ht
    exact h t ht i (Nat.zero_le i)

/-- The repair pass cannot create a visible-GS token. -/
theorem repairMarkers_noTok (s : List Char) (h : NoTok s) : NoTok (repairMarkers s) := by
  obtain ⟨h91ne, _, _⟩ := marker91_facts
  obtain ⟨h92ne, _, _⟩ := marker92_facts
  obtain ⟨h93ne, _, _⟩ := marker93_facts
  rw [noTok_iff] at h ⊢
  intro t ht
  unfold repairMarkers
  exact repairLoop_noOcc gs93M h93ne ciEq t (tokens_gs_free t ht) _ _ _ _
    (repairLoop_noOcc gs92M h92ne ciEq t (tokens_gs_free t ht) _ _ _ _
      (repairLoop_noOcc gs91M h91ne ciEq t (tokens_gs_free t ht) _ _ _ _ (h t ht)))

theorem repairMarkers_fixed (s : List Char)
    (h91 : NoOccFrom exEq gs91M 18 s) (h92 : NoOccFrom exEq gs92M 18 s)
    (h93 : NoOccFrom exEq gs93M 18 s) : repairMarkers s = s := by
  obtain ⟨h91ne, _, _⟩ := marker91_facts
  obtain ⟨h92ne, _, _⟩ := marker92_facts
  obtain ⟨h93ne, _, _⟩ := marker93_facts
  have e1 : repairLoop gs91M (s.length + 1) s 18 = s :=
    repairLoop_fixed gs91M s 18
      (pyFindFrom_eq_none_of_noOcc _ _ _ h91ne (fun m hm => h91 m hm)) _
  have e2 : repairLoop gs92M (s.length + 1) s 18 = s :=
    repairLoop_fixed gs92M s 18
      (pyFindFrom_eq_none_of_noOcc _ _ _ h92ne (fun m hm => h92 m hm)) _
  have e3 : repairLoop gs93M (s.length + 1) s 18 = s :=
    repairLoop_fixed gs93M s 18
      (pyFindFrom_eq_none_of_noOcc _ _ _ h93ne (fun m hm => h93 m hm)) _
  show repairLoop gs93M
      ((repairLoop gs92M ((repairLoop gs91M (s.length + 1) s 18).length + 1)
        (repairLoop gs91M (s.length + 1) s 18) 18).length + 1)
      (repairLoop gs92M ((repairLoop gs91M (s.length + 1) s 18).length + 1)
        (repairLoop gs91M (s.length + 1) s 18) 18) 18 = s
  rw [e1, e2, e3]

/-! ## Fixed points of the stripping stages -/

/-- The substitution pass is the identity on token-free strings. -/
theorem subGS_fixed : ∀ (s : List Char), NoTok s → subGSAux s 0 = s := by
  intro s
  induction s with
  | nil => intro _; rfl
  | cons c cs ih =>
    intro h
    have h0 : matchTokenLen (c :: cs) = none := by
      have := h 0
      rwa [List.drop_zero] at this
    rw [subGSAux, h0]
    have hcs : NoTok cs := by
      intro i
      have := h (i + 1)
      rwa [List.drop_succ_cons] at this
    rw [ih hcs]

/-- The characters ruled out at the head of a canonical string. -/
def headStrippable (s : List Char) : Bool :=
  match s with
  | [] => false
  | c :: _ => c.toNat == 0xE8 || c == GSC

theorem stripOnce_fixed (code : List Char)
    (h1 : d2Tok.isPrefixOf code = false) (h2 : fnc1Tok.isPrefixOf code = false)
    (h3 : headStrippable code = false) :
    stripOnce code = (code, false) := by
  unfold stripOnce
  rw [show dropPre d2Tok (code, false) = (code, false) by unfold dropPre; simp [h1]]
  rw [show dropPre fnc1Tok (code, false) = (code, false) by unfold dropPre; simp [h2]]
  cases hc : code with
  | nil => rfl
  | cons c cs =>
    rw [hc] at h3
    unfold headStrippable at h3
    simp only [Bool.or_eq_false_iff] at h3
    unfold dropHeadE8 dropHeadGS
    simp [h3.1, h3.2]

theorem stripLoop_fixed (code : List Char) (h : stripOnce code = (code, false)) :
    ∀ fuel, stripLoop fuel code = code := by
  intro fuel
  cases fuel with
  | zero => rfl
  | succ fuel =>
    unfold stripLoop
    split
    · rfl
    · rw [h]
      simp

/-- `normalizeGs1Raw` unfolded (the `let` chain). -/
theorem normalizeGs1Raw_def (rawCode : List Char) :
    normalizeGs1Raw rawCode =
      repairMarkers (subGS (stripLoop ((pyStrip rawCode).length + 1) (pyStrip rawCode))) := rfl

/-- No visible-GS token survives normalization. -/
theorem normalize_noTok (p : List Char) : NoTok (normalizeGs1Raw p) := by
  rw [normalizeGs1Raw_def]
  exact repairMarkers_noTok _ (subGS_noTok _ _ (le_refl _))

/-- A normalized string, when already whitespace-clean and free of a
strippable head, is a fixed point of normalization. -/
theorem normalize_fixed_of_canonical (q : List Char)
    (hstrip : pyStrip q = q)
    (h1 : d2Tok.isPrefixOf q = false) (h2 : fnc1Tok.isPrefixOf q = false)
    (h3 : headStrippable q = false)
    (hNoTok : NoTok q)
    (h91 : NoOccFrom exEq gs91M 18 q) (h92 : NoOccFrom exEq gs92M 18 q)
    (h93 : NoOccFrom exEq gs93M 18 q) :
    normalizeGs1Raw q = q := by
  rw [normalizeGs1Raw_def, hstrip,
      stripLoop_fixed q (stripOnce_fixed q h1 h2 h3) (q.length + 1)]
  show repairMarkers (subGSAux q 0) = q
  rw [subGS_fixed q hNoTok]
  exact repairMarkers_fixed q h91 h92 h93

/-! # Claims -/

/-! ## C1: the CSV-safety filter and the byte `0x1D` -/

/-- C1, counterexample: the sanitizer does not preserve the byte `0x1D`
— it rewrites it to the four visible characters `<GS>`. -/
theorem c1_counterexample :
    sanitizeExcelString [GSC] ≠ [GSC] ∧ sanitizeExcelString [GSC] = "<GS>".data := by
  constructor <;> decide

/-- C1 (amended): the filter acts independently on each character; the
byte `0x1D` is replaced by the literal text `<GS>`, and every other C0
control character in `0x00–0x1F` except tab and the newline delimiters
is replaced by the escape `\xNN`; all remaining characters are kept. -/
theorem c1_amended (s t : List Char) (c : Char) :
    sanitizeExcelString (s ++ t) = sanitizeExcelString s ++ sanitizeExcelString t ∧
    sanitizeExcelString [GSC] = "<GS>".data ∧
    (isIllegalCtl c = true → c ≠ GSC → sanitizeExcelString [c] = hexEscape c) ∧
    (isIllegalCtl c = false → sanitizeExcelString [c] = [c]) := by
  refine ⟨sanitize_append s t, by decide, ?_, ?_⟩
  · intro h1 h2
    simp [sanitizeExcelString, h1, sanitizeReplace, h2]
  · intro h
    simp [sanitizeExcelString, h]

theorem c1_amended_witness :
    sanitizeExcelString [Char.ofNat 0x01] = hexEscape (Char.ofNat 0x01) ∧
    sanitizeExcelString ['b'] = ['b'] :=
  ⟨(c1_amended [] [] (Char.ofNat 0x01)).2.2.1 (by decide) (by decide),
   (c1_amended [] [] 'b').2.2.2 (by decide)⟩

/-! ## C3: idempotence of normalization (counterexample) -/

/-- A payload whose normalization strips the `]d2` symbology prefix and
thereby exposes leading whitespace: the first pass ends at `" abc"`,
the second strips further to `"abc"`. -/
def c3cex : List Char := "]d2 abc".data

/-- C3, counterexample: normalization is not idempotent. -/
theorem c3_counterexample :
    normalizeGs1Raw (normalizeGs1Raw c3cex) ≠ normalizeGs1Raw c3cex := by decide

/-- C3 (amended): normalization is idempotent on every payload whose
normalized form neither starts nor ends with whitespace (in Python's
sense, which includes `0x1C`–`0x1F`) and does not begin with `]d2`,
`<FNC1>`, the FNC1 byte `0xE8`, or a literal `0x1D`.  (The second pass
can only differ by re-stripping such a head, as the counterexample
shows; the token substitution and the offset-18 GS repair are always
exhausted by the first pass.) -/
theorem c3_amended (p : List Char)
    (hstrip : pyStrip (normalizeGs1Raw p) = normalizeGs1Raw p)
    (h1 : d2Tok.isPrefixOf (normalizeGs1Raw p) = false)
    (h2 : fnc1Tok.isPrefixOf (normalizeGs1Raw p) = false)
    (h3 : headStrippable (normalizeGs1Raw p) = false) :
    normalizeGs1Raw (normalizeGs1Raw p) = normalizeGs1Raw p := by
  have hnoOcc := repairMarkers_noOcc
    (subGS (stripLoop ((pyStrip p).length + 1) (pyStrip p)))
  rw [← normalizeGs1Raw_def] at hnoOcc
  exact normalize_fixed_of_canonical (normalizeGs1Raw p) hstrip h1 h2 h3
    (normalize_noTok p) hnoOcc.1 hnoOcc.2.1 hnoOcc.2.2

theorem c3_amended_witness :
    normalizeGs1Raw (normalizeGs1Raw ("010460123456789021ABC123".data)) =
      normalizeGs1Raw ("010460123456789021ABC123".data) :=
  c3_amended ("010460123456789021ABC123".data) (by decide) (by decide) (by decide) (by decide)

/-! ## C4: the serial-termination rule -/

/-- A payload whose serial is terminated by a `0x1D` sitting at
position 25 of the serial data: the parser takes all 25 characters. -/
def c4cex : List Char :=
  ("0111111111111111" ++ "21" ++ "AAAAAAAAAAAAAAAAAAAAAAAAA" ++ "\x1d91ABCD").data

/-- C4, counterexample: the parser sets a serial of 25 characters — the
explicit `0x1D` separator is honoured at any distance, so "at most 20
characters" is false. -/
theorem c4_counterexample :
    (parseHonestMark c4cex).serial ≠ none ∧
    ¬ ((parseHonestMark c4cex).serial.getD []).length ≤ 20 := by
  constructor <;> decide

/-- Whenever `parseAfterNorm` sets the serial, the serial is governed by
`extractSerial` on the data 18 characters past the AI `01` position. -/
theorem parseAfterNorm_serial (code s : List Char)
    (h : (parseAfterNorm code).serial = some s) :
    ∃ idx, pyFind ai01 code = some idx ∧
      s = (extractSerial (code.drop (idx + 18))).1 := by
  unfold parseAfterNorm at h
  rcases h01 : pyFind ai01 code with _ | idx <;> simp only [h01] at h
  · exact absurd h (by simp)
  · refine ⟨idx, rfl, ?_⟩
    split at h
    · simp only [parseTail, serialStep] at h
      have hsd : (code.drop (idx + 16)).drop 2 = code.drop (idx + 18) := by
        rw [List.drop_drop]
      rw [hsd] at h
      split at h
      · simpa using h.symm
      · simp at h
    · simp at h

/-- C4 (amended): whenever the parser sets the serial, then over the
serial data (the normalized code after AI `01`, 14 GTIN digits and AI
`21`): if a `0x1D` occurs, the serial is everything before the first
`0x1D` — possibly longer than 20 characters — and otherwise (earliest
`91`/`92`/`93` or `GS91`/`GS92`/`GS93` at position ≤ 20, else hard
truncation) it has at most 20 characters. -/
theorem c4_amended (rawCode s : List Char)
    (h : (parseHonestMark rawCode).serial = some s) :
    ∃ idx, pyFind ai01 (normalizeGs1Raw rawCode) = some idx ∧
      (pyFind [GSC] ((normalizeGs1Raw rawCode).drop (idx + 18)) = none →
        s.length ≤ 20) ∧
      (∀ g, pyFind [GSC] ((normalizeGs1Raw rawCode).drop (idx + 18)) = some g →
        s = ((normalizeGs1Raw rawCode).drop (idx + 18)).take g) := by
  obtain ⟨idx, h01, hs⟩ := parseAfterNorm_serial (normalizeGs1Raw rawCode) s h
  refine ⟨idx, h01, ?_, ?_⟩
  · intro hnone
    rw [hs]
    exact extractSerial_no_gs _ hnone
  · intro g hg
    rw [hs]
    exact extractSerial_gs _ g hg

def scenA : List Char := "010460123456789021ABC123\x1d91XYZA92AAAA".data

theorem c4_amended_witness :
    ∃ idx, pyFind ai01 (normalizeGs1Raw scenA) = some idx ∧
      (pyFind [GSC] ((normalizeGs1Raw scenA).drop (idx + 18)) = none →
        ("ABC123".data).length ≤ 20) ∧
      (∀ g, pyFind [GSC] ((normalizeGs1Raw scenA).drop (idx + 18)) = some g →
        "ABC123".data = ((normalizeGs1Raw scenA).drop (idx + 18)).take g) :=
  c4_amended scenA ("ABC123".data) (by decide)

/-! ## C5: `success_rate` -/

def c5cex : SessionStats := { pages_processed := 2, pages_empty := 1 }

/-- C5, counterexample: `success_rate` is a percentage, not the plain
ratio the claim states: at 2 processed pages with 1 empty it returns
50, not 1/2. -/
theorem c5_counterexample :
    successRate c5cex ≠
      ((c5cex.pages_processed : ℚ) - (c5cex.pages_empty : ℚ)) / (c5cex.pages_processed : ℚ) ∧
    successRate c5cex = 50 := by
  constructor <;> norm_num [successRate, c5cex]

/-- C5 (amended): `success_rate` equals
`(pages_processed − pages_empty) / pages_processed * 100` when
`pages_processed > 0`, and `0` otherwise. -/
theorem c5_amended (st : SessionStats) :
    (st.pages_processed ≠ 0 →
      successRate st =
        ((st.pages_processed : ℚ) - (st.pages_empty : ℚ)) / (st.pages_processed : ℚ) * 100) ∧
    (st.pages_processed = 0 → successRate st = 0) := by
  constructor <;> intro h <;> simp [successRate, h]

theorem c5_amended_witness :
    successRate c5cex =
      ((c5cex.pages_processed : ℚ) - (c5cex.pages_empty : ℚ)) / (c5cex.pages_processed : ℚ) * 100 :=
  (c5_amended c5cex).1 (by decide)

/-! ## C6: shapes of `gtin` and `verification_key` -/

/-- Whenever `parseAfterNorm` sets `gtin`, the stored value passed the
length-14 and `str.isdigit` check. -/
theorem parseAfterNorm_gtin (code : List Char) :
    ∀ g, (parseAfterNorm code).gtin = some g →
      g.length = 14 ∧ g.all pyIsDigit = true := by
  intro g hg
  unfold parseAfterNorm at hg
  rcases h01 : pyFind ai01 code with _ | idx <;> simp only [h01] at hg
  · simp at hg
  · split at hg
    next hvalid =>
      simp only [parseTail] at hg
      have heq : ((code.drop (idx + 2)).take 14) = g := by simpa using hg
      rw [← heq]
      exact hvalid
    next => simp at hg

theorem parseAfterNorm_vkey (code : List Char) :
    ∀ k, (parseAfterNorm code).verification_key = some k → k.length = 4 := by
  intro k hk
  unfold parseAfterNorm at hk
  rcases h01 : pyFind ai01 code with _ | idx <;> simp only [h01] at hk
  · simp at hk
  · split at hk
    next =>
      simp only [parseTail, keyStep] at hk
      rcases hkp : keyPosOf (serialStep (code.drop (idx + 16))).2 with _ | kp <;>
        simp only [hkp] at hk
      · simp at hk
      · split at hk
        next hlen =>
          have heq : ((serialStep (code.drop (idx + 16))).2.drop (kp + 2)).take 4 = k := by
            simpa using hk
          rw [← heq]
          exact hlen
        next => simp at hk
    next => simp at hk

/-- A payload whose 14 GTIN characters are the superscript two
`U+00B2`: Python's `str.isdigit` accepts it, so the parser sets a
`gtin` containing no decimal digit at all. -/
def c6cex : List Char := "01".data ++ List.replicate 14 (Char.ofNat 0xB2)

/-- C6, counterexample: the parser sets `gtin` to fourteen `'²'`
characters — isdigit-true yet not decimal digits — so "exactly 14
decimal digits" is false of the program. -/
theorem c6_counterexample :
    (parseHonestMark c6cex).gtin = some (List.replicate 14 (Char.ofNat 0xB2)) ∧
    (List.replicate 14 (Char.ofNat 0xB2)).all Char.isDigit = false := by
  constructor <;> decide

/-- C6 (amended): whenever the parser sets `gtin` it is exactly 14
characters each accepted by Python's `str.isdigit` — a test wider than
the decimal digits, admitting digit-valued characters such as `'²'` —
and whenever it sets `verification_key` it is exactly 4 characters, for
every input payload. -/
theorem c6_field_shapes (p : List Char) :
    (∀ g, (parseHonestMark p).gtin = some g →
        g.length = 14 ∧ g.all pyIsDigit = true) ∧
    (∀ k, (parseHonestMark p).verification_key = some k → k.length = 4) :=
  ⟨parseAfterNorm_gtin (normalizeGs1Raw p), parseAfterNorm_vkey (normalizeGs1Raw p)⟩

theorem c6_field_shapes_witness :
    (("04601234567890".data).length = 14 ∧
      ("04601234567890".data).all pyIsDigit = true) ∧
    ("XYZA".data).length = 4 :=
  ⟨(c6_field_shapes scenA).1 ("04601234567890".data) (by decide),
   (c6_field_shapes scenA).2 ("XYZA".data) (by decide)⟩

/-! ## C7: the GS-letters repair only rewrites markers at offset ≥ 18 -/

/-- The claim's characterization of the repair step: a chain of single
replacements, each rewriting the two letters `GS` into one `0x1D` at an
occurrence of `GS91`, `GS92` or `GS93` beginning at offset 18 or
later. -/
inductive GSRepaired : List Char → List Char → Prop where
  | refl (s : List Char) : GSRepaired s s
  | step (s t marker : List Char) (idx : Nat) :
      marker ∈ [gs91M, gs92M, gs93M] → 18 ≤ idx →
      prefixRel exEq marker (s.drop idx) = true →
      GSRepaired (replaceAt s idx) t → GSRepaired s t

theorem GSRepaired_trans {a b c : List Char} (h1 : GSRepaired a b) (h2 : GSRepaired b c) :
    GSRepaired a c := by
  induction h1 with
  | refl s => exact h2
  | step s t marker idx hm hi ho _ ih =>
    exact GSRepaired.step s c marker idx hm hi ho (ih h2)

theorem repairLoop_repaired (marker : List Char) (hmne : marker ≠ [])
    (hm : marker ∈ [gs91M, gs92M, gs93M]) :
    ∀ (fuel : Nat) (code : List Char) (start : Nat), 18 ≤ start →
      GSRepaired code (repairLoop marker fuel code start) := by
  intro fuel
  induction fuel with
  | zero => intro code start _; exact GSRepaired.refl code
  | succ fuel ih =>
    intro code start hs
    rcases hf : pyFindFrom marker code start with _ | idx
    · rw [repairLoop, hf]
      exact GSRepaired.refl code
    · rw [repairLoop, hf]
      obtain ⟨hsi, hocc, _⟩ := pyFindFrom_some_spec marker code start idx hmne hf
      exact GSRepaired.step code _ marker idx hm (by omega) hocc
        (ih (replaceAt code idx) (idx + 1) (by omega))

theorem repairMarkers_repaired (s : List Char) : GSRepaired s (repairMarkers s) := by
  obtain ⟨h91ne, _, _⟩ := marker91_facts
  obtain ⟨h92ne, _, _⟩ := marker92_facts
  obtain ⟨h93ne, _, _⟩ := marker93_facts
  have hm91 : gs91M ∈ [gs91M, gs92M, gs93M] := by simp
  have hm92 : gs92M ∈ [gs91M, gs92M, gs93M] := by simp
  have hm93 : gs93M ∈ [gs91M, gs92M, gs93M] := by simp
  have g1 := repairLoop_repaired gs91M h91ne hm91 (s.length + 1) s 18 (le_refl 18)
  have g2 := repairLoop_repaired gs92M h92ne hm92
    ((repairLoop gs91M (s.length + 1) s 18).length + 1)
    (repairLoop gs91M (s.length + 1) s 18) 18 (le_refl 18)
  have g3 := repairLoop_repaired gs93M h93ne hm93
    ((repairLoop gs92M ((repairLoop gs91M (s.length + 1) s 18).length + 1)
      (repairLoop gs91M (s.length + 1) s 18) 18).length + 1)
    (repairLoop gs92M ((repairLoop gs91M (s.length + 1) s 18).length + 1)
      (repairLoop gs91M (s.length + 1) s 18) 18) 18 (le_refl 18)
  exact GSRepaired_trans g1 (GSRepaired_trans g2 g3)

theorem replaceAt_take18 (s : List Char) (idx : Nat) (h18 : 18 ≤ idx)
    (hlt : idx ≤ s.length) : (replaceAt s idx).take 18 = s.take 18 := by
  unfold replaceAt
  rw [List.take_append_of_le_length (by rw [List.length_take]; omega), List.take_take]
  congr 1
  omega

theorem GSRepaired_take18 {a b : List Char} (h : GSRepaired a b) :
    b.take 18 = a.take 18 := by
  induction h with
  | refl s => rfl
  | step s t marker idx hm h18 hocc hrest ih =>
    rw [ih]
    have hmlen : 1 ≤ marker.length := by
      simp only [List.mem_cons, List.not_mem_nil, or_false] at hm
      rcases hm with rfl | rfl | rfl <;> decide
    have hlen := prefixRel_length exEq marker _ hocc
    rw [List.length_drop] at hlen
    exact replaceAt_take18 s idx h18 (by omega)

/-- C7: the GS-letters repair step of normalization transforms its
input exactly by replacements of the two letters `GS` with a single
`0x1D` at occurrences of `GS91`/`GS92`/`GS93` beginning at offset 18
or later, and it never modifies the first 18 characters. -/
theorem c7_repair_offsets (s : List Char) :
    GSRepaired s (repairMarkers s) ∧ (repairMarkers s).take 18 = s.take 18 := by
  have h := repairMarkers_repaired s
  exact ⟨h, GSRepaired_take18 h⟩

/-! ## C8: worker error containment -/

/-- C8: if any rasterizer or decoder call performed along the worker's
path raises (first render, its decode, the full-page re-render when a
ROI is configured and nothing was found, or its decode), the worker
returns exactly one `ERROR` outcome carrying the exception message; the
worker itself is a total function, so no exception reaches the
scheduler. -/
theorem c8_worker_errors {Image : Type} (renderRoi renderFull : Except String Image)
    (decode : Image → Except String (List (List Char))) (roiConfigured : Bool)
    (filename : String) (pageNum : Nat) (parseMarks : Bool) (e : String)
    (h : renderRoi = Except.error e ∨
         (∃ img, renderRoi = Except.ok img ∧ decode img = Except.error e) ∨
         (∃ img, renderRoi = Except.ok img ∧ decode img = Except.ok [] ∧
            roiConfigured = true ∧ renderFull = Except.error e) ∨
         (∃ img fullImg, renderRoi = Except.ok img ∧ decode img = Except.ok [] ∧
            roiConfigured = true ∧ renderFull = Except.ok fullImg ∧
            decode fullImg = Except.error e)) :
    decodeSinglePage renderRoi renderFull decode roiConfigured filename pageNum parseMarks =
      [{ filename := filename, page := some (pageNum + 1),
         status := Status.ERROR, error_message := some e }] := by
  have hbe : ∀ {α β : Type} (e2 : String) (f : α → Except String β),
      (Except.error e2 >>= f) = Except.error e2 := fun _ _ => rfl
  have hbo : ∀ {α β : Type} (a : α) (f : α → Except String β),
      (Except.ok a >>= f) = f a := fun _ _ => rfl
  have hp : decodePipeline renderRoi renderFull decode roiConfigured = Except.error e := by
    rcases h with h | ⟨img, h1, h2⟩ | ⟨img, h1, h2, h3, h4⟩ | ⟨img, fullImg, h1, h2, h3, h4, h5⟩ <;>
      simp [decodePipeline, *]
  simp [decodeSinglePage, hp]

theorem c8_worker_errors_witness :
    @decodeSinglePage Unit (Except.error "boom") (Except.error "boom")
      (fun _ => Except.ok []) true "f.pdf" 0 true =
      [{ filename := "f.pdf", page := some 1, status := Status.ERROR,
         error_message := some "boom" }] :=
  c8_worker_errors _ _ _ _ _ _ _ _ (Or.inl rfl)

/-! ## C9: progress entries and resume filtering -/

/-- C9: every outcome with a non-`None` page yields a `(filename, page)`
progress entry regardless of its status, and every `(filename, page)`
pair of the loaded progress set is excluded from the task queue (before
and after the global limit truncation). -/
theorem c9_progress_resume :
    (∀ (results : List ProcessingResult) (r : ProcessingResult) (pg : Nat),
        r ∈ results → r.page = some pg →
        (r.filename, pg) ∈ resultsToDonePages results) ∧
    (∀ (files : List (String × Except String Nat)) (done : List (String × Nat))
        (limit : Option Nat) (name : String) (p : Nat),
        (name, p) ∈ applyLimit (buildTaskQueue files done) limit →
        (name, p + 1) ∉ done) := by
  constructor
  · intro results r pg hr hpage
    exact List.mem_filterMap.mpr ⟨r, hr, by simp [hpage]⟩
  · intro files done limit name p hmem hdone
    have hq : (name, p) ∈ buildTaskQueue files done := by
      cases limit with
      | none => exact hmem
      | some l => exact (List.take_sublist l _).mem hmem
    simp only [buildTaskQueue, List.mem_flatMap] at hq
    obtain ⟨⟨fname, fcnt⟩, _, hmem2⟩ := hq
    cases fcnt with
    | error e => simp at hmem2
    | ok total =>
      simp only [List.mem_filterMap] at hmem2
      obtain ⟨q, _, heq⟩ := hmem2
      by_cases hd : (fname, q + 1) ∈ done
      · simp [hd] at heq
      · simp [hd] at heq
        obtain ⟨h1, h2⟩ := heq
        rw [← h1, ← h2] at hdone
        exact hd hdone

def c9res : ProcessingResult :=
  { filename := "a.pdf", page := some 2, status := Status.ERROR }

theorem c9_progress_resume_witness :
    ("a.pdf", 2) ∈ resultsToDonePages [c9res] ∧
    ("a.pdf", 1 + 1) ∉ [("a.pdf", 1)] :=
  ⟨c9_progress_resume.1 [c9res] c9res 2 (by simp) rfl,
   c9_progress_resume.2 [("a.pdf", Except.ok 2)] [("a.pdf", 1)] none "a.pdf" 1 (by decide)⟩

/-! ## C2: in-order commit under arbitrary completion order -/

theorem lookupKey_mem (l : List (PageKey × List ProcessingResult)) (k : PageKey)
    (v : List ProcessingResult) (h : lookupKey k l = some v) : (k, v) ∈ l := by
  induction l with
  | nil => simp [lookupKey] at h
  | cons e rest ih =>
    unfold lookupKey at h
    split at h
    next heq =>
      have hv : e.2 = v := by simpa using h
      have he2 : (k, v) = e := by rw [← heq, ← hv]
      rw [he2]
      exact List.mem_cons_self e rest
    next => exact List.mem_cons_of_mem e (ih h)

theorem lookupKey_isSome_of_mem (l : List (PageKey × List ProcessingResult))
    (k : PageKey) (v : List ProcessingResult) (h : (k, v) ∈ l) :
    lookupKey k l ≠ none := by
  induction l with
  | nil => simp at h
  | cons e rest ih =>
    unfold lookupKey
    split
    next => simp
    next hne =>
      rcases List.mem_cons.mp h with heq | hmem
      · exact absurd (congrArg Prod.fst heq.symm) hne
      · exact ih hmem

/-- On an association list with distinct keys, removing the binding of
a key is the same as filtering it out. -/
theorem popKey_eq_filter (l : List (PageKey × List ProcessingResult)) (k : PageKey)
    (hnd : (l.map Prod.fst).Nodup) :
    popKey k l = l.filter (fun e => decide (¬ e.1 = k)) := by
  induction l with
  | nil => rfl
  | cons e rest ih =>
    have hnd2 : (rest.map Prod.fst).Nodup := (List.nodup_cons.mp hnd).2
    have hknotin : e.1 ∉ rest.map Prod.fst := (List.nodup_cons.mp hnd).1
    by_cases hek : e.1 = k
    · have h1 : popKey k (e :: rest) = rest := by
        unfold popKey
        rw [List.eraseP_cons]
        simp [hek]
      have h2 : List.filter (fun e2 => decide (¬ e2.1 = k)) (e :: rest) = rest := by
        rw [List.filter_cons_of_neg (by simp [hek])]
        refine List.filter_eq_self.mpr ?_
        intro x hx
        simp only [decide_eq_true_eq]
        intro hxk
        have hxm : x.1 ∈ rest.map Prod.fst := List.mem_map.mpr ⟨x, hx, rfl⟩
        rw [hxk, ← hek] at hxm
        exact hknotin hxm
      rw [h1, h2]
    · have h1 : popKey k (e :: rest) = e :: popKey k rest := by
        unfold popKey
        rw [List.eraseP_cons]
        simp [hek]
      rw [h1, List.filter_cons_of_pos (by simp [hek]), ih hnd2]

/-- The commit invariant maintained by the multi-worker loop: `done`
are the completions handled so far; the buffer holds exactly the
outcomes of the committed prefix of the task list; staging holds the
completed-but-uncommitted pages; committed keys were all completed. -/
def commitInv (tasks done : List (PageKey × List ProcessingResult)) (st : MWState) : Prop :=
  st.nextPageIdx ≤ tasks.length ∧
  st.buffer = singleWorkerRun (tasks.take st.nextPageIdx) ∧
  st.readyPages = done.reverse.filter
    (fun e => decide (¬ e.1 ∈ (tasks.map Prod.fst).take st.nextPageIdx)) ∧
  ∀ k ∈ (tasks.map Prod.fst).take st.nextPageIdx, k ∈ done.map Prod.fst

/-- The drain loop's exit condition: either every page is committed or
the page at the cursor is not staged. -/
def commitStopped (tasks : List (PageKey × List ProcessingResult)) (st : MWState) : Prop :=
  match (tasks.map Prod.fst)[st.nextPageIdx]? with
  | none => True
  | some k => lookupKey k st.readyPages = none

theorem singleWorker_snoc (l : List (PageKey × List ProcessingResult))
    (t : PageKey × List ProcessingResult) :
    singleWorkerRun (l ++ [t]) = singleWorkerRun l ++ t.2 := by
  simp [singleWorkerRun, List.foldl_append]

theorem assoc_entry_unique (l : List (PageKey × List ProcessingResult))
    (hnd : (l.map Prod.fst).Nodup) (k : PageKey) (a b : List ProcessingResult)
    (ha : (k, a) ∈ l) (hb : (k, b) ∈ l) : a = b := by
  induction l with
  | nil => simp at ha
  | cons e rest ih =>
    have hknotin : e.1 ∉ rest.map Prod.fst := (List.nodup_cons.mp hnd).1
    rcases List.mem_cons.mp ha with haeq | hamem <;>
      rcases List.mem_cons.mp hb with hbeq | hbmem
    · exact congrArg Prod.snd (haeq.trans hbeq.symm)
    · have hkey : e.1 = k := (congrArg Prod.fst haeq).symm
      exact absurd (List.mem_map.mpr ⟨(k, b), hbmem, hkey.symm⟩) hknotin
    · have hkey : e.1 = k := (congrArg Prod.fst hbeq).symm
      exact absurd (List.mem_map.mpr ⟨(k, a), hamem, hkey.symm⟩) hknotin
    · exact ih (List.nodup_cons.mp hnd).2 hamem hbmem

theorem nodup_getElem_not_mem_take (l : List PageKey) (hnd : l.Nodup) (n : Nat)
    (hn : n < l.length) : l[n] ∉ l.take n := by
  intro hmem
  have hsplit : (l.take n ++ l.drop n).Nodup := by
    rw [List.take_append_drop]; exact hnd
  have hdisj := (List.nodup_append.mp hsplit).2.2
  have hdrop : l[n] ∈ l.drop n := by
    have hlen : 0 < (l.drop n).length := by
      rw [List.length_drop]; omega
    have hel : (l.drop n)[0] = l[n] := by
      rw [List.getElem_drop]
      simp
    exact hel ▸ List.getElem_mem hlen
  exact hdisj hmem hdrop

/-- The drain loop preserves the invariant and ends stopped. -/
theorem drainReady_inv (tasks done : List (PageKey × List ProcessingResult))
    (hnd : (tasks.map Prod.fst).Nodup)
    (hdsub : ∀ e ∈ done, e ∈ tasks)
    (hdnd : (done.map Prod.fst).Nodup) :
    ∀ (fuel : Nat) (st : MWState), tasks.length - st.nextPageIdx < fuel →
      commitInv tasks done st →
      commitInv tasks done (drainReady (tasks.map Prod.fst) fuel st) ∧
      commitStopped tasks (drainReady (tasks.map Prod.fst) fuel st) := by
  intro fuel
  induction fuel with
  | zero => intro st hf _; omega
  | succ fuel ih =>
    intro st hf hinv
    rcases hk : (tasks.map Prod.fst)[st.nextPageIdx]? with _ | key
    · refine ⟨?_, ?_⟩ <;> simp only [drainReady, hk] <;>
        first
          | exact hinv
          | simp [commitStopped, hk]
    · rcases hl : lookupKey key st.readyPages with _ | res
      · refine ⟨?_, ?_⟩ <;> simp only [drainReady, hk, hl] <;>
          first
            | exact hinv
            | simp [commitStopped, hk, hl]
      · obtain ⟨hle, hbuf, hready, hcov⟩ := hinv
        have hn : st.nextPageIdx < tasks.length := by
          have := (List.getElem?_eq_some_iff.mp hk).1
          simpa using this
        -- the staged entry is the entry of the task at the cursor
        have hmem_ready : (key, res) ∈ st.readyPages := lookupKey_mem _ _ _ hl
        have hmem_done : (key, res) ∈ done := by
          rw [hready] at hmem_ready
          exact List.mem_reverse.mp (List.mem_filter.mp hmem_ready).1
        have hmem_tasks : (key, res) ∈ tasks := hdsub _ hmem_done
        have hfst : tasks[st.nextPageIdx].1 = key := by
          have hmap : (tasks[st.nextPageIdx]?).map Prod.fst = some key := by
            rw [← List.getElem?_map]; exact hk
          rw [List.getElem?_eq_getElem hn] at hmap
          simpa using hmap
        have hres_eq : tasks[st.nextPageIdx].2 = res := by
          refine assoc_entry_unique tasks hnd key _ _ ?_ hmem_tasks
          have hmem_tn : tasks[st.nextPageIdx] ∈ tasks := List.getElem_mem hn
          have hpair : (key, tasks[st.nextPageIdx].2) = tasks[st.nextPageIdx] := by
            rw [← hfst]
          rw [hpair]
          exact hmem_tn
        have hpair : tasks[st.nextPageIdx] = (key, res) := by
          rw [← hfst, ← hres_eq]
        -- take (n+1) facts
        have htake_succ : tasks.take (st.nextPageIdx + 1) =
            tasks.take st.nextPageIdx ++ [(key, res)] := by
          rw [List.take_succ, List.getElem?_eq_getElem hn, hpair]
          rfl
        have hktake_succ : (tasks.map Prod.fst).take (st.nextPageIdx + 1) =
            (tasks.map Prod.fst).take st.nextPageIdx ++ [key] := by
          rw [List.take_succ, hk]
          rfl
        have hinvStep : commitInv tasks done
            ⟨popKey key st.readyPages, st.nextPageIdx + 1, st.buffer ++ res⟩ := by
          refine ⟨by simpa using hn, ?_, ?_, ?_⟩
          · show st.buffer ++ res = singleWorkerRun (tasks.take (st.nextPageIdx + 1))
            rw [hbuf, htake_succ, singleWorker_snoc]
          · show popKey key st.readyPages = _
            have hready_nd : (st.readyPages.map Prod.fst).Nodup := by
              have hsub2 : List.Sublist (st.readyPages.map Prod.fst) (done.reverse.map Prod.fst) := by
                rw [hready]
                exact List.Sublist.map Prod.fst (List.filter_sublist done.reverse)
              have hrevnd : (done.reverse.map Prod.fst).Nodup := by
                rw [List.map_reverse]
                exact List.nodup_reverse.mpr hdnd
              exact List.Nodup.sublist hsub2 hrevnd
            rw [popKey_eq_filter _ _ hready_nd, hready, List.filter_filter]
            refine List.filter_congr ?_
            intro e hme
            simp only [hktake_succ, List.mem_append, List.mem_singleton]
            rcases Decidable.em (e.1 = key) with h1 | h1 <;>
              rcases Decidable.em (e.1 ∈ (tasks.map Prod.fst).take st.nextPageIdx) with h2 | h2 <;>
              simp [h1, h2]
          · show ∀ k2 ∈ (tasks.map Prod.fst).take (st.nextPageIdx + 1), k2 ∈ done.map Prod.fst
            intro k2 hk2
            rw [hktake_succ] at hk2
            rcases List.mem_append.mp hk2 with h2 | h2
            · exact hcov k2 h2
            · have hkk : k2 = key := by simpa using h2
              rw [hkk]
              exact List.mem_map.mpr ⟨(key, res), hmem_done, rfl⟩
        have hstep := ih
          ⟨popKey key st.readyPages, st.nextPageIdx + 1, st.buffer ++ res⟩
          (by show tasks.length - (st.nextPageIdx + 1) < fuel; omega) hinvStep
        refine ⟨?_, ?_⟩ <;> simp only [drainReady, hk, hl] <;>
          first
            | exact hstep.1
            | exact hstep.2

/-- Handling one completion (stage, then drain) preserves the
invariant, extending `done`. -/
theorem completeOne_inv (tasks done : List (PageKey × List ProcessingResult))
    (c : PageKey × List ProcessingResult)
    (hnd : (tasks.map Prod.fst).Nodup)
    (hdsub : ∀ e ∈ done ++ [c], e ∈ tasks)
    (hdnd : ((done ++ [c]).map Prod.fst).Nodup)
    (st : MWState) (hinv : commitInv tasks done st) :
    commitInv tasks (done ++ [c]) (completeOne (tasks.map Prod.fst) st c) ∧
    commitStopped tasks (completeOne (tasks.map Prod.fst) st c) := by
  obtain ⟨hle, hbuf, hready, hcov⟩ := hinv
  have hcnotdone : c.1 ∉ done.map Prod.fst := by
    have := hdnd
    rw [List.map_append] at this
    have hdisj := (List.nodup_append.mp this).2.2
    intro hmem
    exact hdisj hmem (by simp)
  have hinv2 : commitInv tasks (done ++ [c]) { st with readyPages := c :: st.readyPages } := by
    refine ⟨hle, hbuf, ?_, ?_⟩
    · show c :: st.readyPages = List.filter
        (fun e => decide (¬ e.1 ∈ (tasks.map Prod.fst).take st.nextPageIdx))
        ((done ++ [c]).reverse)
      have hrev : (done ++ [c]).reverse = c :: done.reverse := by simp
      have hc2 : ¬ c.1 ∈ (tasks.map Prod.fst).take st.nextPageIdx :=
        fun hmem => hcnotdone (hcov c.1 hmem)
      rw [hrev]
      simp [List.filter_cons, hc2, hready]
    · show ∀ k2 ∈ (tasks.map Prod.fst).take st.nextPageIdx, k2 ∈ (done ++ [c]).map Prod.fst
      intro k2 hk2
      rw [List.map_append, List.mem_append]
      exact Or.inl (hcov k2 hk2)
  have hstep := drainReady_inv tasks (done ++ [c]) hnd hdsub hdnd
    ((tasks.map Prod.fst).length + 1) { st with readyPages := c :: st.readyPages }
    (by show tasks.length - st.nextPageIdx < (tasks.map Prod.fst).length + 1
        simp only [List.length_map]
        omega) hinv2
  exact hstep

/-- Folding over any completion list keeps the invariant. -/
theorem foldl_completeOne_inv (tasks : List (PageKey × List ProcessingResult))
    (hnd : (tasks.map Prod.fst).Nodup) :
    ∀ (cs done : List (PageKey × List ProcessingResult)) (st : MWState),
      (∀ e ∈ done ++ cs, e ∈ tasks) →
      (((done ++ cs).map Prod.fst).Nodup) →
      commitInv tasks done st → commitStopped tasks st →
      commitInv tasks (done ++ cs) (cs.foldl (completeOne (tasks.map Prod.fst)) st) ∧
      commitStopped tasks (cs.foldl (completeOne (tasks.map Prod.fst)) st) := by
  intro cs
  induction cs with
  | nil =>
    intro done st hsub hnd2 hinv hstop
    simpa using ⟨hinv, hstop⟩
  | cons c cs ih =>
    intro done st hsub hnd2 hinv hstop
    simp only [List.foldl_cons]
    have hsub1 : ∀ e ∈ done ++ [c], e ∈ tasks := by
      intro e he
      refine hsub e ?_
      rcases List.mem_append.mp he with h | h
      · exact List.mem_append.mpr (Or.inl h)
      · simp only [List.mem_singleton] at h
        exact List.mem_append.mpr (Or.inr (h ▸ List.mem_cons_self c cs))
    have hnd1 : ((done ++ [c]).map Prod.fst).Nodup := by
      have hre : done ++ c :: cs = (done ++ [c]) ++ cs := by simp
      rw [hre] at hnd2
      exact List.Nodup.sublist
        (List.Sublist.map Prod.fst (List.sublist_append_left (done ++ [c]) cs)) hnd2
    have h1 := completeOne_inv tasks done c hnd hsub1 hnd1 st hinv
    have hre : done ++ c :: cs = (done ++ [c]) ++ cs := by simp
    rw [hre] at hsub hnd2 ⊢
    exact ih (done ++ [c]) _ hsub hnd2 h1.1 h1.2

/-- C2: with distinct page keys, for every completion order of the
submitted tasks the sequence of outcomes committed to the sink buffer
by the multi-worker staging/drain machinery equals the concatenation
of each task's outcome list in the precomputed order — identical to
single-worker inline mode. -/
theorem c2_ordered_commit (tasks completions : List (PageKey × List ProcessingResult))
    (hnd : (tasks.map Prod.fst).Nodup) (hperm : completions.Perm tasks) :
    multiWorkerRun (tasks.map Prod.fst) completions = singleWorkerRun tasks := by
  have hsub : ∀ e ∈ completions, e ∈ tasks := fun e he => hperm.mem_iff.mp he
  have hcnd : (completions.map Prod.fst).Nodup := (hperm.map Prod.fst).nodup_iff.mpr hnd
  have hinit : commitInv tasks [] ⟨[], 0, []⟩ := by
    refine ⟨Nat.zero_le _, rfl, rfl, ?_⟩
    intro k hk
    simp at hk
  have hstop0 : commitStopped tasks ⟨[], 0, []⟩ := by
    unfold commitStopped
    rcases h : (tasks.map Prod.fst)[(0 : Nat)]? with _ | k
    · trivial
    · rfl
  have hfin := foldl_completeOne_inv tasks hnd completions [] ⟨[], 0, []⟩
    (by simpa using hsub) (by simpa using hcnd) hinit hstop0
  rw [List.nil_append] at hfin
  obtain ⟨⟨hle, hbuf, hready, _⟩, hstop⟩ := hfin
  set final := completions.foldl (completeOne (tasks.map Prod.fst)) ⟨[], 0, []⟩ with hfinal
  have hn_eq : final.nextPageIdx = tasks.length := by
    by_contra hne
    have hn : final.nextPageIdx < tasks.length := lt_of_le_of_ne hle hne
    have hklen : final.nextPageIdx < (tasks.map Prod.fst).length := by simpa using hn
    have hkey : (tasks.map Prod.fst)[final.nextPageIdx]? =
        some ((tasks.map Prod.fst)[final.nextPageIdx]) :=
      List.getElem?_eq_getElem hklen
    have hkmem : (tasks.map Prod.fst)[final.nextPageIdx] ∈ tasks.map Prod.fst :=
      List.getElem_mem hklen
    obtain ⟨e, hemem, hekey⟩ := List.mem_map.mp hkmem
    have hecomp : e ∈ completions := hperm.mem_iff.mpr hemem
    have hnot_take : e.1 ∉ (tasks.map Prod.fst).take final.nextPageIdx := by
      rw [hekey]
      exact nodup_getElem_not_mem_take (tasks.map Prod.fst) hnd final.nextPageIdx hklen
    have hmem_ready : (e.1, e.2) ∈ final.readyPages := by
      rw [hready]
      refine List.mem_filter.mpr ⟨?_, by simpa using hnot_take⟩
      simpa using hecomp
    have hlook := lookupKey_isSome_of_mem final.readyPages e.1 e.2 hmem_ready
    unfold commitStopped at hstop
    rw [hkey, ← hekey] at hstop
    exact hlook hstop
  unfold multiWorkerRun
  rw [← hfinal, hbuf, hn_eq, List.take_length]

def c2taskA : PageKey × List ProcessingResult :=
  (("a.pdf", 1), [{ filename := "a.pdf", page := some 1 }])

def c2taskB : PageKey × List ProcessingResult :=
  (("b.pdf", 1), [{ filename := "b.pdf", page := some 1 }])

theorem c2_ordered_commit_witness :
    multiWorkerRun ([c2taskA, c2taskB].map Prod.fst) [c2taskB, c2taskA] =
      singleWorkerRun [c2taskA, c2taskB] :=
  c2_ordered_commit [c2taskA, c2taskB] [c2taskB, c2taskA] (by decide)
    (List.Perm.swap c2taskA c2taskB [])

/-! ## C10: corrupt sidecar yields the empty resume set -/

/-- C10: `load_progress` is total (never raises), and when the progress
sidecar exists but reading or parsing it raises, the result is the
empty set — a corrupt sidecar silently forces full reprocessing. -/
theorem c10_corrupt_sidecar (fs : ProgressFs) (e : String)
    (h : fs.sidecar = some (Except.error e)) : loadProgress fs = [] := by
  simp [loadProgress, h]

theorem c10_corrupt_sidecar_witness :
    loadProgress ⟨some (Except.error "bad csv"), none⟩ = [] :=
  c10_corrupt_sidecar _ "bad csv" rfl

end DmxGrabber
